import Mathlib

/-!
# Verification of the shooter3 client-server synchronization core

Shallow embedding of the protocol / prediction logic of the repository
(`src/controller.rs`, `src/predict.rs`, `src/frame.rs`, `src/bin/client.rs`,
`src/bin/server.rs`) and proofs about it.

Modelling conventions:
* Rust `f32` scalars are modelled as `ℚ`.  The source only combines them with
  field operations, `min`/`max` and comparisons, all of which are exact here;
  square roots (`Vec3::length`, `normalize`) and trigonometry (`look_quat`)
  come from the external math library and are modelled as unconstrained
  oracle functions supplied as parameters (see `MathOracles`).  Comparisons
  of the form `v.length() < c` in the source are embedded as the equivalent
  `v.length_squared() < c^2` where the embedded function needs a concrete
  value (both sides nonnegative, squaring is monotone); theorems relating the
  embedding to genuine lengths carry explicit hypotheses stating that a given
  scalar is the (nonnegative) length of the vector in question.
* Rust `u32`/`u8` counters are modelled as `ℕ`; the source never relies on
  wrap-around for them (`u8` saturating add is modelled with `min _ 255`).
* `BTreeMap<u32, Vec3>` (the position log) is modelled as an association list
  sorted by key; `VecDeque` queues are modelled as `List` with the front at
  the head.
-/

/-- The `glam`/`bevy` `Vec3`, components modelled as `ℚ`. -/
structure Vec3 where
  x : ℚ
  y : ℚ
  z : ℚ
  deriving DecidableEq, Repr

namespace Vec3

def zero : Vec3 := ⟨0, 0, 0⟩

instance : Add Vec3 := ⟨fun a b => ⟨a.x + b.x, a.y + b.y, a.z + b.z⟩⟩

instance : Sub Vec3 := ⟨fun a b => ⟨a.x - b.x, a.y - b.y, a.z - b.z⟩⟩

instance : SMul ℚ Vec3 := ⟨fun c v => ⟨c * v.x, c * v.y, c * v.z⟩⟩

/-- Embeds `Vec3::dot`. -/
def dot (a b : Vec3) : ℚ := a.x * b.x + a.y * b.y + a.z * b.z

/-- Embeds `Vec3::length_squared`. -/
def lengthSquared (v : Vec3) : ℚ := v.x * v.x + v.y * v.y + v.z * v.z

end Vec3

/-! ## `src/predict.rs` -/

/-- The `VelocityExtrapolate` component (`src/predict.rs`). -/
structure VelocityExtrapolate where
  velocity : Vec3
  base_tick : ℕ
  deriving DecidableEq, Repr

namespace VelocityExtrapolate

/-- Embeds `VelocityExtrapolate::apply` (`src/predict.rs` lines 10-18):
dead-reckons `base_translation` by `velocity * ((tick - base_tick) / 60)`,
returning the base translation unchanged for `tick <= base_tick`. -/
def apply (e : VelocityExtrapolate) (tick : ℕ) (base_translation : Vec3) : Vec3 :=
  if tick ≤ e.base_tick then base_translation
  else
    let ticks : ℕ := tick - e.base_tick
    let f : ℚ := (ticks : ℚ) / 60
    base_translation + f • e.velocity

end VelocityExtrapolate

/-! ## Client tick gating (`src/bin/client.rs`, `client_sync_players`) -/

/-- The `MostRecentTick` resource (`src/bin/client.rs`). -/
structure MostRecentTick where
  from_server : ℕ
  predicted : ℕ
  deriving DecidableEq, Repr

/-- State of the tick filter during one run of `client_sync_players`.
`live` is what the `Option<ResMut<MostRecentTick>>` system parameter sees:
it is fixed at the start of the run (bevy resolves system parameters before
the system body executes) and, when `some`, mutable in place.  `pending` is
the deferred `commands.insert_resource(MostRecentTick { .. })`: bevy applies
`Commands` only at the stage boundary, after the whole run, and a later
insert overwrites an earlier one. -/
structure TickRunState where
  live : Option MostRecentTick
  pending : Option MostRecentTick
  deriving DecidableEq, Repr

/-- One `NetworkFrame` arriving at the tick filter of `client_sync_players`
(`src/bin/client.rs` lines 324-340): with the resource parameter absent the
frame body is applied and a deferred `insert_resource` is queued (the
parameter itself stays `none` for the rest of the run); with the resource
present the frame is applied iff its tick is strictly greater than
`from_server`, updating the resource in place; otherwise the frame is
skipped (`continue`).  Returns the new run state and whether the frame body
was applied. -/
def applyFrameTick (st : TickRunState) (tick : ℕ) : TickRunState × Bool :=
  match st.live with
  | none => (⟨none, some ⟨tick, tick⟩⟩, true)
  | some t =>
      if t.from_server < tick then (⟨some ⟨tick, tick⟩, st.pending⟩, true)
      else (⟨some t, st.pending⟩, false)

/-- The `while let Some(message) = client.receive_message(NetworkFrame)` drain
loop of one `client_sync_players` run: feeds every queued frame tick through
the filter, collecting the ticks of the frames whose bodies were applied. -/
def runFrames (st : TickRunState) : List ℕ → TickRunState × List ℕ
  | [] => (st, [])
  | t :: rest =>
      let s := applyFrameTick st t
      let r := runFrames s.1 rest
      (r.1, if s.2 then t :: r.2 else r.2)

/-- The stage boundary after a run: deferred `Commands` are applied, so the
`MostRecentTick` resource becomes the in-place-mutated live value if it
existed, else the last queued `insert_resource` value (if any). -/
def commitRun (st : TickRunState) : Option MostRecentTick :=
  match st.live with
  | some t => some t
  | none => st.pending

/-- A sequence of `client_sync_players` runs, each draining one batch of
queued frame ticks, threading the `MostRecentTick` resource through the
stage boundaries; collects all applied ticks in order. -/
def driveRuns (res : Option MostRecentTick) : List (List ℕ) → List ℕ
  | [] => []
  | batch :: batches =>
      let r := runFrames ⟨res, none⟩ batch
      r.2 ++ driveRuns (commitRun r.1) batches

/-! ## Serial-keyed discard (`FpsControllerLog::discard`,
`src/controller.rs` lines 222-230, and the inline copy in
`client_sync_players`, `src/bin/client.rs` lines 385-391) -/

/-- The discard loop: `while let Some(e) = pos.first_entry() { if *e.key() >=
serial { break; } e.remove(); }` over the key-sorted entry list of the
`BTreeMap`. -/
def discardLoop : List (ℕ × Vec3) → ℕ → List (ℕ × Vec3)
  | [], _ => []
  | e :: rest, serial =>
      if serial ≤ e.1 then e :: rest else discardLoop rest serial

/-! ## Movement math helpers (`src/controller.rs` lines 535-554) -/

/-- Embeds `friction` (`src/controller.rs` lines 535-541).  The caller passes
`lateral_speed = velocity.xz().length()`. -/
def friction (lateral_speed fr stop_speed dt : ℚ) (velocity : Vec3) : Vec3 :=
  let control := max lateral_speed stop_speed
  let drop := control * fr * dt
  let new_speed := max ((lateral_speed - drop) / lateral_speed) 0
  ⟨velocity.x * new_speed, velocity.y, velocity.z * new_speed⟩

/-- Embeds `accelerate` (`src/controller.rs` lines 543-554). -/
def accelerate (wish_dir : Vec3) (wish_speed accel dt : ℚ) (velocity : Vec3) : Vec3 :=
  let velocity_projection := Vec3.dot velocity wish_dir
  let add_speed := wish_speed - velocity_projection
  if add_speed ≤ 0 then velocity
  else
    let accel_speed := min (accel * wish_speed * dt) add_speed
    let wish_direction := accel_speed • wish_dir
    ⟨velocity.x + wish_direction.x, velocity.y, velocity.z + wish_direction.z⟩

/-! ## The movement integrator (`fps_controller_move`,
`src/controller.rs` lines 329-529) -/

/-- Embeds `MoveMode` (`src/controller.rs`). -/
inductive MoveMode where
  | Noclip : MoveMode
  | Ground : MoveMode
  deriving DecidableEq, Repr

/-- Embeds `FpsControllerInput` (`src/controller.rs` lines 40-50). -/
structure FpsControllerInput where
  serial : ℕ
  fly : Bool
  sprint : Bool
  jump : Bool
  crouch : Bool
  pitch : ℚ
  yaw : ℚ
  movement : Vec3
  deriving DecidableEq, Repr

/-- The `FpsController` component (`src/controller.rs` lines 92-118).
`log_name` (a diagnostic label) is omitted; it only affects logging. -/
structure FpsController where
  last_applied_serial : ℕ
  move_mode : MoveMode
  gravity : ℚ
  walk_speed : ℚ
  run_speed : ℚ
  forward_speed : ℚ
  side_speed : ℚ
  air_speed_cap : ℚ
  air_acceleration : ℚ
  max_air_speed : ℚ
  accel : ℚ
  friction : ℚ
  friction_cutoff : ℚ
  jump_speed : ℚ
  fly_speed : ℚ
  fast_fly_speed : ℚ
  fly_friction : ℚ
  pitch : ℚ
  yaw : ℚ
  velocity : Vec3
  ground_tick : ℕ
  stop_speed : ℚ
  apply_single : Bool
  deriving DecidableEq, Repr

/-- Oracles for the external math the integrator calls out to: square roots
(`Vec3::length`, `Vec2::length`, `Vec3::normalize`) and the quaternion
trigonometry of `look_quat` (`src/controller.rs` line 531), plus the physics
ground probe (`RapierContext::cast_shape`, an external collaborator; it is a
function of the capsule position and the look orientation).  No property of
these functions is assumed; theorems hold for every interpretation. -/
structure MathOracles where
  len3 : Vec3 → ℚ
  len2 : ℚ → ℚ → ℚ
  normalize3 : Vec3 → Vec3
  lookRight : ℚ → ℚ → Vec3
  lookForward : ℚ → ℚ → Vec3
  probeGround : Vec3 → ℚ → ℚ → Bool

/-- Embeds `FpsControllerLog::put` (`src/controller.rs` lines 186-220): insert into
the `BTreeMap` only if the key is vacant (occupied entries are kept).  The
file side-channel is ignored.  The list is kept sorted by key. -/
def logPut : List (ℕ × Vec3) → ℕ → Vec3 → List (ℕ × Vec3)
  | [], serial, pos => [(serial, pos)]
  | e :: rest, serial, pos =>
      if serial < e.1 then (serial, pos) :: e :: rest
      else if serial = e.1 then e :: rest
      else e :: logPut rest serial pos

/-- Embeds `BTreeMap::get` on the sorted entry list. -/
def lookupLog : List (ℕ × Vec3) → ℕ → Option Vec3
  | [], _ => none
  | e :: rest, serial => if e.1 = serial then some e.2 else lookupLog rest serial

/-- The `MoveMode::Ground` body of `fps_controller_move`
(`src/controller.rs` lines 394-503) for one input command: returns
`(start_velocity, end_velocity, new ground_tick)`.  The collider is the
capsule of `FpsControllerPhysicsBundle` (the `as_capsule()` test succeeds);
the capsule cast is the `probeGround` oracle.  `ground_tick` is a `u8` with
saturating increment. -/
def groundMove (ext : MathOracles) (dt : ℚ) (c : FpsController)
    (input : FpsControllerInput) (position : Vec3) : Vec3 × Vec3 × ℕ :=
  let start_velocity := c.velocity
  let end_velocity := start_velocity
  let lateral_speed := ext.len2 start_velocity.x start_velocity.z
  let forward := ext.lookForward input.pitch input.yaw
  let right := ext.lookRight input.pitch input.yaw
  let ground_hit := ext.probeGround position input.pitch input.yaw
  let wish_direction :=
    (input.movement.z * c.forward_speed) • forward +
      (input.movement.x * c.side_speed) • right
  let wish_speed := ext.len3 wish_direction
  let wish_direction :=
    if 1 / 1000000 < wish_speed then (1 / wish_speed) • wish_direction
    else wish_direction
  let max_speed := if input.sprint then c.run_speed else c.walk_speed
  let wish_speed := min wish_speed max_speed
  if ground_hit then
    let end_velocity :=
      if 1 ≤ c.ground_tick then
        let ev :=
          if c.friction_cutoff < lateral_speed then
            friction lateral_speed c.friction c.stop_speed dt end_velocity
          else ⟨0, end_velocity.y, 0⟩
        ⟨ev.x, 0, ev.z⟩
      else end_velocity
    let end_velocity := accelerate wish_direction wish_speed c.accel dt end_velocity
    if input.jump then
      (⟨start_velocity.x, c.jump_speed, start_velocity.z⟩,
        ⟨end_velocity.x, c.jump_speed - c.gravity * dt, end_velocity.z⟩,
        min (c.ground_tick + 1) 255)
    else (start_velocity, end_velocity, min (c.ground_tick + 1) 255)
  else
    let wish_speed := min wish_speed c.air_speed_cap
    let end_velocity :=
      accelerate wish_direction wish_speed c.air_acceleration dt end_velocity
    let end_velocity :=
      ⟨end_velocity.x, end_velocity.y - c.gravity * dt, end_velocity.z⟩
    let air_speed := ext.len2 end_velocity.x end_velocity.z
    let end_velocity :=
      if c.max_air_speed < air_speed then
        let ratio := c.max_air_speed / air_speed
        ⟨end_velocity.x * ratio, end_velocity.y, end_velocity.z * ratio⟩
      else end_velocity
    (start_velocity, end_velocity, 0)

/-- Per-entity mutable state touched by `fps_controller_move`: the
`FpsController`, the transform translation (read-only in this system: only
physics moves it), the rapier `Velocity.linvel` and the position log. -/
structure MoveState where
  controller : FpsController
  translation : Vec3
  linvel : Vec3
  log : List (ℕ × Vec3)
  deriving DecidableEq, Repr

/-- The body of the `while let Some(input) = input_queue.queue.pop_front()`
loop of `fps_controller_move` (`src/controller.rs` lines 354-516) for one
input: log the translation under the input serial, toggle `move_mode` on the
edge-triggered `fly` flag, run the `Noclip` or `Ground` branch, record
`last_applied_serial`. -/
def applyInput (ext : MathOracles) (dt : ℚ) (st : MoveState)
    (input : FpsControllerInput) : MoveState :=
  let log := logPut st.log input.serial st.translation
  let c := st.controller
  let c :=
    if input.fly then
      { c with move_mode :=
          match c.move_mode with
          | MoveMode.Noclip => MoveMode.Ground
          | MoveMode.Ground => MoveMode.Noclip }
    else c
  match c.move_mode with
  | MoveMode.Noclip =>
      let cvel :=
        if input.movement = Vec3.zero then
          let fly_friction := min (max c.fly_friction 0) 1
          let v := (1 - fly_friction) • c.velocity
          if v.lengthSquared < 1 / 1000000 then Vec3.zero else v
        else
          let fly_speed := if input.sprint then c.fast_fly_speed else c.fly_speed
          fly_speed • ext.normalize3 input.movement
      let right := ext.lookRight input.pitch input.yaw
      let forward := ext.lookForward input.pitch input.yaw
      let linvel := cvel.x • right + cvel.y • (⟨0, 1, 0⟩ : Vec3) + cvel.z • forward
      { controller := { c with velocity := cvel, last_applied_serial := input.serial }
        translation := st.translation
        linvel := linvel
        log := log }
  | MoveMode.Ground =>
      let r := groundMove ext dt c input st.translation
      { controller :=
          { c with
            velocity := r.2.1
            ground_tick := r.2.2
            last_applied_serial := input.serial }
        translation := st.translation
        linvel := (1 / 2 : ℚ) • (r.1 + r.2.1)
        log := log }

/-- The full pop loop of `fps_controller_move`: pop from the front, apply,
and stop early after one command when `apply_single` is set.  Returns the
final state and the commands left in the queue. -/
def runQueue (ext : MathOracles) (dt : ℚ) :
    MoveState → List FpsControllerInput → MoveState × List FpsControllerInput
  | st, [] => (st, [])
  | st, input :: rest =>
      let st2 := applyInput ext dt st input
      if st2.controller.apply_single then (st2, rest)
      else runQueue ext dt st2 rest

/-! ## Client snapshot handling for the controlled entity
(`client_sync_players`, `src/bin/client.rs` lines 359-409) -/

/-- Mutable state of the locally controlled entity as touched by the
controlled-player branch of `client_sync_players`: the `FpsController`
serial bookkeeping, the serial-keyed position log, the entity transform
translation and the rapier `Velocity.linvel`. -/
structure ControlledState where
  last_applied_serial : ℕ
  logPos : List (ℕ × Vec3)
  translation : Vec3
  linvel : Vec3
  deriving DecidableEq, Repr

/-- The controlled-player branch of `client_sync_players`
(`src/bin/client.rs` lines 359-409), reached for a snapshot that passed the
tick filter and whose entity list contains the controlled entity:

* `velocity.linvel = frame.entities.velocities[i]`;
* `fps_controller.last_applied_serial = frame.last_player_input`;
* if the position log holds an entry for that serial: compute
  `delta = log_pos - snapshot_translation`, discard log entries with key
  strictly below `frame.last_player_input`, and snap the entity translation
  to the snapshot translation only when `delta.length() > 0.1` and
  `linvel.length() < 0.1` (both comparisons embedded via squared lengths:
  `a.length() > 0.1` iff `a.length_squared() > 1/100`, both sides being
  nonnegative); otherwise the locally predicted translation is kept.

No queued input is replayed. -/
def clientSyncControlled (frameVelocity frameTranslation : Vec3)
    (last_player_input : ℕ) (st : ControlledState) : ControlledState :=
  let st1 : ControlledState :=
    { st with linvel := frameVelocity, last_applied_serial := last_player_input }
  match lookupLog st1.logPos last_player_input with
  | none => st1
  | some log_pos =>
      let delta := log_pos - frameTranslation
      let st2 : ControlledState :=
        { st1 with logPos := discardLoop st1.logPos last_player_input }
      if 1 / 100 < delta.lengthSquared ∧ frameVelocity.lengthSquared < 1 / 100 then
        { st2 with translation := frameTranslation }
      else st2

/-! ## Server: input application (`move_players_system`,
`src/bin/server.rs` lines 314-340) -/

/-- The `PlayerInput` message.  Its declaration lives in the crate root (`lib.rs`), which
is not part of the sources at hand; the fields are modelled from the spec's
`InputCommand` (§3: serial, movement intents, optional acknowledged tick) and
from the uses in `src/bin/server.rs` (`input.right/left/down/up`,
`input.serial`, `input.most_recent_tick`). -/
structure PlayerInput where
  serial : ℕ
  up : Bool
  down : Bool
  left : Bool
  right : Bool
  most_recent_tick : Option ℕ
  deriving DecidableEq, Repr

/-- Server-side per-player state touched by `move_players_system`: the
`PlayerVelocity`, the `ExternalImpulse` and `last_applied_serial` of the
`PlayerInputQueue`.  (`transform.translation` is only mutated by physics;
the direct translation update in the source is commented out.) -/
structure ServerPlayerState where
  velocity : Vec3
  impulse : Vec3
  last_applied_serial : ℕ
  deriving DecidableEq, Repr

def boolToRat (b : Bool) : ℚ := if b then 1 else 0

/-- One iteration of the pop loop of `move_players_system`
(`src/bin/server.rs` lines 323-338).  `normalize2` is the external
`Vec2::normalize_or_zero`; `move_speed` is the crate-root constant
`PLAYER_MOVE_SPEED` (value not in the sources at hand, kept abstract).
`direction * PLAYER_MOVE_SPEED` is written into `impulse.x/.z`, and
`(direction * PLAYER_MOVE_SPEED).extend(0.0).xzy()` into the velocity. -/
def movePlayersStep (normalize2 : ℚ → ℚ → ℚ × ℚ) (move_speed : ℚ)
    (st : ServerPlayerState) (input : PlayerInput) : ServerPlayerState :=
  let x := boolToRat input.right - boolToRat input.left
  let y := boolToRat input.down - boolToRat input.up
  let direction := normalize2 x y
  let offs := (direction.1 * move_speed, direction.2 * move_speed)
  { velocity := ⟨direction.1 * move_speed, 0, direction.2 * move_speed⟩
    impulse := ⟨offs.1, st.impulse.y, offs.2⟩
    last_applied_serial := input.serial }

/-- The full pop loop of `move_players_system`: pops and applies until the
queue is empty (there is no early break).  Returns the final state and the
commands left in the queue. -/
def movePlayersLoop (normalize2 : ℚ → ℚ → ℚ × ℚ) (move_speed : ℚ) :
    ServerPlayerState → List PlayerInput → ServerPlayerState × List PlayerInput
  | st, [] => (st, [])
  | st, input :: rest =>
      movePlayersLoop normalize2 move_speed (movePlayersStep normalize2 move_speed st input) rest

/-! ## Server: snapshot broadcast (`server_network_sync`,
`src/bin/server.rs` lines 256-311) -/

/-- Embeds `NetworkedEntities` (`src/frame.rs`).  Entity ids modelled as `ℕ`. -/
structure NetworkedEntities where
  entities : List ℕ
  translations : List Vec3
  velocities : List Vec3
  deriving DecidableEq, Repr

/-- Embeds `WithRotation` (`src/frame.rs`).  Quaternions are uninterpreted 4-tuples. -/
structure WithRotation where
  entities : List ℕ
  translations : List Vec3
  velocities : List Vec3
  rotations : List (ℚ × ℚ × ℚ × ℚ)
  deriving DecidableEq, Repr

/-- Embeds `NetworkFrame` (`src/frame.rs`). -/
structure NetworkFrame where
  tick : ℕ
  last_player_input : ℕ
  entities : NetworkedEntities
  with_rotation : WithRotation
  deriving DecidableEq, Repr

/-- One invocation of `server_network_sync` (`src/bin/server.rs` lines
256-311).  The ECS queries that fill the entity arrays are abstracted into
the `gathered` argument (their content does not depend on the tick logic).
The source sets `frame.tick = tick.0` and then increments `tick.0`
unconditionally; only when the send timer just finished does it send, per
player `(id, last_applied_serial)`, one copy of the frame with
`last_player_input` set to that player's last applied serial.  Returns the
new tick value and the `(player id, frame)` messages sent. -/
def serverNetworkSync (tick : ℕ) (timerJustFinished : Bool)
    (gathered : NetworkedEntities × WithRotation) (players : List (ℕ × ℕ)) :
    ℕ × List (ℕ × NetworkFrame) :=
  let frame : NetworkFrame :=
    { tick := tick
      last_player_input := 0
      entities := gathered.1
      with_rotation := gathered.2 }
  (tick + 1,
    if timerJustFinished then
      players.map fun p => (p.1, { frame with last_player_input := p.2 })
    else [])

/-- A run of successive `server_network_sync` invocations, each step supplying
the timer state, the gathered entity arrays and the connected players;
collects all messages sent, in order. -/
def serverRun (tick : ℕ) :
    List (Bool × (NetworkedEntities × WithRotation) × List (ℕ × ℕ)) →
      List (ℕ × NetworkFrame)
  | [] => []
  | step :: rest =>
      let r := serverNetworkSync tick step.1 step.2.1 step.2.2
      r.2 ++ serverRun r.1 rest

/-- The ticks carried by the messages one given player receives during a run,
in send order. -/
def playerSentTicks (pid : ℕ) (msgs : List (ℕ × NetworkFrame)) : List ℕ :=
  msgs.filterMap fun m => if m.1 = pid then some m.2.tick else none

/-! ## Concrete fixtures for evaluating theorems at specific inputs -/

/-- A concrete interpretation of the external-math oracles. -/
def trivialExt : MathOracles :=
  { len3 := fun _ => 0
    len2 := fun _ _ => 0
    normalize3 := fun v => v
    lookRight := fun _ _ => ⟨1, 0, 0⟩
    lookForward := fun _ _ => ⟨0, 0, -1⟩
    probeGround := fun _ _ _ => true }

/-- The `Default` values of `FpsController` (`src/controller.rs` lines
120-149). -/
def defaultController : FpsController :=
  { last_applied_serial := 0
    move_mode := MoveMode.Ground
    gravity := 23
    walk_speed := 10
    run_speed := 30
    forward_speed := 30
    side_speed := 30
    air_speed_cap := 2
    air_acceleration := 20
    max_air_speed := 8
    accel := 10
    friction := 10
    friction_cutoff := 1 / 10
    jump_speed := 17 / 2
    fly_speed := 10
    fast_fly_speed := 30
    fly_friction := 1 / 2
    pitch := 0
    yaw := 0
    velocity := Vec3.zero
    ground_tick := 0
    stop_speed := 1
    apply_single := false }

/-- A grounded jump input command. -/
def jumpInput : FpsControllerInput :=
  { serial := 1
    fly := false
    sprint := false
    jump := true
    crouch := false
    pitch := 0
    yaw := 0
    movement := Vec3.zero }

/-- A controller entity at rest at the origin with an empty position log. -/
def restState : MoveState :=
  { controller := defaultController
    translation := Vec3.zero
    linvel := Vec3.zero
    log := [] }

/-- A concrete three-invocation broadcast run: two timer firings around one
silent invocation, a single connected player with id 1. -/
def witnessSteps :
    List (Bool × (NetworkedEntities × WithRotation) × List (ℕ × ℕ)) :=
  [(true, (⟨[], [], []⟩, ⟨[], [], [], []⟩), [(1, 0)]),
    (false, (⟨[], [], []⟩, ⟨[], [], [], []⟩), []),
    (true, (⟨[], [], []⟩, ⟨[], [], [], []⟩), [(1, 3)])]

/-! ## Helper lemmas -/

theorem Vec3.smul_mk (c x y z : ℚ) : c • (⟨x, y, z⟩ : Vec3) = ⟨c * x, c * y, c * z⟩ := rfl

theorem Vec3.add_mk (a b : Vec3) : a + b = ⟨a.x + b.x, a.y + b.y, a.z + b.z⟩ := rfl

theorem Vec3.sub_mk (a b : Vec3) : a - b = ⟨a.x - b.x, a.y - b.y, a.z - b.z⟩ := rfl

theorem Vec3.one_smul_eq (v : Vec3) : (1 : ℚ) • v = v := by
  cases v
  simp [Vec3.smul_mk]

/-! ## Claim theorems -/

/-- C5: `VelocityExtrapolate::apply(tick, t)` returns `t` unchanged whenever
`tick <= base_tick`, and otherwise returns
`t + velocity * ((tick - base_tick) / 60)`; in particular
`apply(base_tick + 60, t) = t + velocity` (one second at 60 ticks/second). -/
theorem velocityExtrapolate_apply_spec (e : VelocityExtrapolate) (tick : ℕ) (t : Vec3) :
    (tick ≤ e.base_tick → e.apply tick t = t) ∧
    (e.base_tick < tick →
      e.apply tick t = t + (((tick - e.base_tick : ℕ) : ℚ) / 60) • e.velocity) ∧
    e.apply (e.base_tick + 60) t = t + e.velocity := by
  refine ⟨fun h => ?_, fun h => ?_, ?_⟩
  · simp [VelocityExtrapolate.apply, h]
  · simp [VelocityExtrapolate.apply, not_le.mpr h]
  · have h : ¬ e.base_tick + 60 ≤ e.base_tick := by omega
    have h60 : e.base_tick + 60 - e.base_tick = 60 := by omega
    simp only [VelocityExtrapolate.apply, if_neg h, h60]
    norm_num [Vec3.one_smul_eq]

theorem velocityExtrapolate_apply_spec_witness :
    (5 : ℕ) < 65 ∧
      VelocityExtrapolate.apply ⟨⟨1, 2, 3⟩, 5⟩ 65 ⟨0, 0, 0⟩ =
        (⟨0, 0, 0⟩ : Vec3) + (((65 - 5 : ℕ) : ℚ) / 60) • (⟨1, 2, 3⟩ : Vec3) :=
  ⟨by decide, (velocityExtrapolate_apply_spec ⟨⟨1, 2, 3⟩, 5⟩ 65 ⟨0, 0, 0⟩).2.1 (by decide)⟩

/-- Every frame drained in a run whose resource parameter is absent is
applied unconditionally. -/
theorem runFrames_none_applied :
    ∀ (ts : List ℕ) (p : Option MostRecentTick),
      (runFrames ⟨none, p⟩ ts).2 = ts := by
  intro ts
  induction ts with
  | nil => intro p; rfl
  | cons t rest ih =>
      intro p
      have hstep : applyFrameTick ⟨none, p⟩ t = (⟨none, some ⟨t, t⟩⟩, true) := rfl
      simp only [runFrames, hstep, if_true]
      rw [ih]

/-- A run whose resource parameter is present applies exactly the frames
whose ticks strictly exceed the running `from_server`: the applied ticks are
strictly increasing, all above the starting `from_server` and at most the
final one, and the run ends with the resource still present (the pending
slot untouched). -/
theorem runFrames_some :
    ∀ (ts : List ℕ) (m : MostRecentTick) (p : Option MostRecentTick),
      ∃ m2 : MostRecentTick,
        (runFrames ⟨some m, p⟩ ts).1 = ⟨some m2, p⟩ ∧
        m.from_server ≤ m2.from_server ∧
        List.Chain' (· < ·) (runFrames ⟨some m, p⟩ ts).2 ∧
        ∀ a ∈ (runFrames ⟨some m, p⟩ ts).2,
          m.from_server < a ∧ a ≤ m2.from_server := by
  intro ts
  induction ts with
  | nil =>
      intro m p
      exact ⟨m, rfl, le_refl _, List.chain'_nil,
        fun a ha => absurd ha (List.not_mem_nil a)⟩
  | cons t rest ih =>
      intro m p
      by_cases h : m.from_server < t
      · obtain ⟨m2, hst, hle, hch, hmem⟩ := ih ⟨t, t⟩ p
        have hstep : applyFrameTick ⟨some m, p⟩ t = (⟨some ⟨t, t⟩, p⟩, true) := by
          simp [applyFrameTick, h]
        refine ⟨m2, ?_, ?_, ?_, ?_⟩
        · simp only [runFrames, hstep]
          exact hst
        · exact le_trans h.le hle
        · simp only [runFrames, hstep, if_true]
          refine List.chain'_cons'.mpr ⟨?_, hch⟩
          intro b hb
          exact (hmem b (List.mem_of_mem_head? hb)).1
        · simp only [runFrames, hstep, if_true]
          intro a ha
          cases ha with
          | head => exact ⟨h, hle⟩
          | tail _ ha =>
              exact ⟨lt_trans h (hmem a ha).1, (hmem a ha).2⟩
      · obtain ⟨m2, hst, hle, hch, hmem⟩ := ih m p
        have hstep : applyFrameTick ⟨some m, p⟩ t = (⟨some m, p⟩, false) := by
          simp [applyFrameTick, h]
        refine ⟨m2, ?_, hle, ?_, ?_⟩
        · simp only [runFrames, hstep]
          exact hst
        · simp only [runFrames, hstep, Bool.false_eq_true, if_false]
          exact hch
        · simp only [runFrames, hstep, Bool.false_eq_true, if_false]
          exact hmem

/-- Once the `MostRecentTick` resource exists, the applied ticks over any
sequence of runs are strictly increasing and above its `from_server`. -/
theorem driveRuns_some :
    ∀ (batches : List (List ℕ)) (m : MostRecentTick),
      List.Chain' (· < ·) (driveRuns (some m) batches) ∧
        ∀ a ∈ driveRuns (some m) batches, m.from_server < a := by
  intro batches
  induction batches with
  | nil =>
      intro m
      exact ⟨List.chain'_nil, fun a ha => absurd ha (List.not_mem_nil a)⟩
  | cons b bs ih =>
      intro m
      obtain ⟨m2, hst, hle, hch, hmem⟩ := runFrames_some b m none
      have hcommit : commitRun (runFrames ⟨some m, none⟩ b).1 = some m2 := by
        rw [hst]; rfl
      have hdrive : driveRuns (some m) (b :: bs) =
          (runFrames ⟨some m, none⟩ b).2 ++ driveRuns (some m2) bs := by
        simp only [driveRuns]
        rw [hcommit]
      rw [hdrive]
      obtain ⟨ihch, ihmem⟩ := ih m2
      constructor
      · refine List.Chain'.append hch ihch ?_
        intro x hx y hy
        have hx2 := hmem x (List.mem_of_mem_getLast? hx)
        have hy2 := ihmem y (List.mem_of_mem_head? hy)
        exact lt_of_le_of_lt hx2.2 hy2
      · intro a ha
        rcases List.mem_append.mp ha with ha | ha
        · exact (hmem a ha).1
        · exact lt_of_le_of_lt hle (ihmem a ha)

/-- C3 counterexample: `commands.insert_resource` is deferred to the stage
boundary while the `Option<ResMut<MostRecentTick>>` parameter stays absent
for the whole run, so every frame drained in a run that began before the
resource existed is applied unconditionally.  Feeding ticks
`[5, 3, 7, 6, 8]` in one such pre-resource drain applies all five frames —
tick 3 is applied after tick 5 was accepted — instead of the `[5, 7, 8]`
the claim requires. -/
theorem tick_gate_startup_counterexample :
    driveRuns none [[5, 3, 7, 6, 8]] = [5, 3, 7, 6, 8] ∧
      driveRuns none [[5, 3, 7, 6, 8]] ≠ [5, 7, 8] := by
  constructor
  · decide
  · decide

/-- C3 (amended): while the `MostRecentTick` resource exists, a frame is
applied iff its tick strictly exceeds `from_server` (equal or lower ticks
are skipped), and over any sequence of runs the applied ticks are strictly
increasing; but every frame drained in a run that began before the resource
existed is applied unconditionally, the deferred resource insert becoming
visible only after that run.  Delivered one frame per run, ticks
`[5, 3, 7, 6, 8]` yield applied ticks `[5, 7, 8]`. -/
theorem client_tick_gating_spec :
    (∀ (st : TickRunState) (m : MostRecentTick) (t : ℕ), st.live = some m →
        ((applyFrameTick st t).2 = true ↔ m.from_server < t)) ∧
    (∀ (st : TickRunState) (t : ℕ), st.live = none →
        (applyFrameTick st t).2 = true) ∧
    (∀ (ts : List ℕ) (p : Option MostRecentTick),
        (runFrames ⟨none, p⟩ ts).2 = ts) ∧
    (∀ (m : MostRecentTick) (batches : List (List ℕ)),
        List.Chain' (· < ·) (driveRuns (some m) batches) ∧
          ∀ a ∈ driveRuns (some m) batches, m.from_server < a) ∧
    driveRuns none [[5], [3], [7], [6], [8]] = [5, 7, 8] := by
  refine ⟨?_, ?_, fun ts p => runFrames_none_applied ts p,
    fun m batches => driveRuns_some batches m, by decide⟩
  · intro st m t hm
    rw [applyFrameTick, hm]
    by_cases h : m.from_server < t
    · simp [h]
    · simp [h]
  · intro st t hn
    rw [applyFrameTick, hn]

theorem client_tick_gating_spec_witness :
    (TickRunState.live ⟨some ⟨4, 4⟩, none⟩ = some ⟨4, 4⟩ ∧ (4 : ℕ) < 9) ∧
      (applyFrameTick ⟨some ⟨4, 4⟩, none⟩ 9).2 = true :=
  ⟨⟨rfl, by decide⟩,
    (client_tick_gating_spec.1 ⟨some ⟨4, 4⟩, none⟩ ⟨4, 4⟩ 9 rfl).mpr (by decide)⟩

/-- The discard loop is the `dropWhile` of the entries whose key is strictly
below the acknowledged serial. -/
theorem discardLoop_eq_dropWhile (s : ℕ) :
    ∀ l : List (ℕ × Vec3), discardLoop l s = l.dropWhile fun e => decide (e.1 < s) := by
  intro l
  induction l with
  | nil => rfl
  | cons e rest ih =>
      by_cases h : s ≤ e.1
      · simp [discardLoop, List.dropWhile, if_pos h, Nat.not_lt.mpr h]
      · simp [discardLoop, List.dropWhile, if_neg h, Nat.lt_of_not_le h, ih]

/-- With keys sorted, every entry surviving the discard loop has key at least
the acknowledged serial. -/
theorem discardLoop_ge (s : ℕ) :
    ∀ l : List (ℕ × Vec3), List.Pairwise (fun a b => a.1 ≤ b.1) l →
      ∀ e ∈ discardLoop l s, s ≤ e.1 := by
  intro l
  induction l with
  | nil => intro _ e he; simp [discardLoop] at he
  | cons a rest ih =>
      intro hp e he
      rcases List.pairwise_cons.mp hp with ⟨ha, hrest⟩
      by_cases h : s ≤ a.1
      · rw [discardLoop, if_pos h] at he
        cases he with
        | head => exact h
        | tail _ he => exact le_trans h (ha e he)
      · rw [discardLoop, if_neg h] at he
        exact ih hrest e he

/-- C2 counterexample: the discard loop breaks at the first key `>=` the
acknowledged serial, so the entry whose serial equals `last_server_serial`
is kept: serials `[10, 11, 12]` discarded with serial `11` give `[11, 12]`,
not `[12]` as the claim states. -/
theorem discard_keeps_equal_serial_counterexample :
    ¬ ((discardLoop [(10, Vec3.zero), (11, Vec3.zero), (12, Vec3.zero)] 11).map
        Prod.fst = [12]) := by decide

/-- C2 (amended): applying the discard policy (which the client runs on the
serial-keyed position log; the input queue itself has no discard pass)
removes exactly the maximal front prefix of entries with serial strictly
below `last_server_serial` and, for a key-sorted log, leaves only entries
with serial at least `last_server_serial`; serials `[10, 11, 12]` with
`last_player_input = 11` become `[11, 12]`. -/
theorem discardLoop_spec (l : List (ℕ × Vec3)) (s : ℕ)
    (hs : List.Pairwise (fun a b => a.1 ≤ b.1) l) :
    discardLoop l s = l.dropWhile (fun e => decide (e.1 < s)) ∧
    l.takeWhile (fun e => decide (e.1 < s)) ++ discardLoop l s = l ∧
    (∀ e ∈ discardLoop l s, s ≤ e.1) ∧
    (∀ e ∈ l.takeWhile (fun e => decide (e.1 < s)), e.1 < s) ∧
    (discardLoop [(10, Vec3.zero), (11, Vec3.zero), (12, Vec3.zero)] 11).map
        Prod.fst = [11, 12] := by
  refine ⟨discardLoop_eq_dropWhile s l, ?_, discardLoop_ge s l hs, ?_, by decide⟩
  · rw [discardLoop_eq_dropWhile s l]
    exact List.takeWhile_append_dropWhile (fun e => decide (e.1 < s)) l
  · intro e he
    simpa using List.mem_takeWhile_imp he

theorem discardLoop_spec_witness :
    List.Pairwise (fun a b : ℕ × Vec3 => a.1 ≤ b.1)
        [(10, Vec3.zero), (11, Vec3.zero), (12, Vec3.zero)] ∧
      (discardLoop [(10, Vec3.zero), (11, Vec3.zero), (12, Vec3.zero)] 11).map
          Prod.fst = [11, 12] :=
  ⟨by decide,
    (discardLoop_spec [(10, Vec3.zero), (11, Vec3.zero), (12, Vec3.zero)] 11
        (by decide)).2.2.2.2⟩

/-- C9: `friction` and `accelerate` leave the vertical velocity component
unchanged; only the `x` and `z` components are ever modified. -/
theorem friction_accelerate_preserve_y (ls fr ss dt ws a : ℚ) (wd v : Vec3) :
    (friction ls fr ss dt v).y = v.y ∧ (accelerate wd ws a dt v).y = v.y := by
  constructor
  · rfl
  · unfold accelerate
    dsimp only
    split <;> rfl

/-- C6: for a velocity with positive lateral speed (`lateral_speed` being the
length of the `(x, z)` components, as the caller guarantees), nonnegative
`friction` coefficient and time step with `friction * dt < 1`, one
application of `friction` scales the lateral components by a common factor
in `[0, 1]`; the post-friction lateral speed is `k * lateral_speed`, which
lies in `[0, lateral_speed]` and is never negative. -/
theorem friction_never_reverses (ls fr ss dt : ℚ) (v : Vec3)
    (hls : 0 < ls) (hlat : ls * ls = v.x * v.x + v.z * v.z)
    (hfr : 0 ≤ fr) (hdt : 0 ≤ dt) (hfd : fr * dt < 1) :
    ∃ k : ℚ, 0 ≤ k ∧ k ≤ 1 ∧
      friction ls fr ss dt v = ⟨k * v.x, v.y, k * v.z⟩ ∧
      (friction ls fr ss dt v).x * (friction ls fr ss dt v).x +
          (friction ls fr ss dt v).z * (friction ls fr ss dt v).z =
        (k * ls) * (k * ls) ∧
      0 ≤ k * ls ∧ k * ls ≤ ls := by
  have hdrop : 0 ≤ max ls ss * fr * dt :=
    mul_nonneg (mul_nonneg (le_trans hls.le (le_max_left ls ss)) hfr) hdt
  set k := max ((ls - max ls ss * fr * dt) / ls) 0 with hk
  have hk0 : 0 ≤ k := le_max_right _ _
  have hk1 : k ≤ 1 := by
    apply max_le _ zero_le_one
    rw [div_le_one hls]
    linarith
  have heq : friction ls fr ss dt v = ⟨k * v.x, v.y, k * v.z⟩ := by
    unfold friction
    dsimp only
    rw [hk, Vec3.mk.injEq]
    exact ⟨mul_comm _ _, rfl, mul_comm _ _⟩
  refine ⟨k, hk0, hk1, heq, ?_, mul_nonneg hk0 hls.le, ?_⟩
  · rw [heq]
    dsimp only
    linear_combination (-(k * k)) * hlat
  · calc k * ls ≤ 1 * ls := mul_le_mul_of_nonneg_right hk1 hls.le
      _ = ls := one_mul ls

theorem friction_never_reverses_witness :
    ((0 : ℚ) < 5 ∧ (5 : ℚ) * 5 = 3 * 3 + 4 * 4 ∧ (0 : ℚ) ≤ 1 ∧ (0 : ℚ) ≤ 1 / 2 ∧
        (1 : ℚ) * (1 / 2) < 1) ∧
      ∃ k : ℚ, 0 ≤ k ∧ k ≤ 1 ∧
        friction 5 1 2 (1 / 2) ⟨3, 7, 4⟩ = ⟨k * 3, 7, k * 4⟩ ∧
        (friction 5 1 2 (1 / 2) ⟨3, 7, 4⟩).x * (friction 5 1 2 (1 / 2) ⟨3, 7, 4⟩).x +
            (friction 5 1 2 (1 / 2) ⟨3, 7, 4⟩).z * (friction 5 1 2 (1 / 2) ⟨3, 7, 4⟩).z =
          (k * 5) * (k * 5) ∧
        0 ≤ k * 5 ∧ k * 5 ≤ 5 :=
  ⟨⟨by norm_num, by norm_num, by norm_num, by norm_num, by norm_num⟩,
    friction_never_reverses 5 1 2 (1 / 2) ⟨3, 7, 4⟩ (by norm_num) (by norm_num)
      (by norm_num) (by norm_num) (by norm_num)⟩

/-- One `accelerate` step from a projection not above `wish_speed` keeps the
projection between its old value and `wish_speed`. -/
theorem accelerate_step_bounds (wd : Vec3) (ws a dt : ℚ)
    (hunit : Vec3.dot wd wd = 1) (hws : 0 ≤ ws) (had : 0 < a * dt)
    (v : Vec3) (hv : Vec3.dot v wd ≤ ws) :
    Vec3.dot v wd ≤ Vec3.dot (accelerate wd ws a dt v) wd ∧
      Vec3.dot (accelerate wd ws a dt v) wd ≤ ws := by
  by_cases h : ws - Vec3.dot v wd ≤ 0
  · have hvw : Vec3.dot v wd = ws := le_antisymm hv (by linarith)
    rw [accelerate, if_pos h, hvw]
    exact ⟨le_refl ws, le_refl ws⟩
  · rw [accelerate, if_neg h]
    dsimp only
    have hsq0 : 0 ≤ wd.x * wd.x + wd.z * wd.z :=
      add_nonneg (mul_self_nonneg wd.x) (mul_self_nonneg wd.z)
    have hsq1 : wd.x * wd.x + wd.z * wd.z ≤ 1 := by
      have hy : 0 ≤ wd.y * wd.y := mul_self_nonneg wd.y
      have := hunit
      unfold Vec3.dot at this
      linarith
    have haccel : 0 ≤ a * ws * dt := by nlinarith
    have hadd : 0 < ws - Vec3.dot v wd := lt_of_not_le h
    have has0 : 0 ≤ min (a * ws * dt) (ws - Vec3.dot v wd) :=
      le_min haccel hadd.le
    have has1 : min (a * ws * dt) (ws - Vec3.dot v wd) ≤ ws - Vec3.dot v wd :=
      min_le_right _ _
    set s := min (a * ws * dt) (ws - Vec3.dot v wd) with hs
    have hproj :
        Vec3.dot ⟨v.x + (s • wd).x, v.y, v.z + (s • wd).z⟩ wd =
          Vec3.dot v wd + s * (wd.x * wd.x + wd.z * wd.z) := by
      show (v.x + s * wd.x) * wd.x + v.y * wd.y + (v.z + s * wd.z) * wd.z =
        (v.x * wd.x + v.y * wd.y + v.z * wd.z) + s * (wd.x * wd.x + wd.z * wd.z)
      ring
    rw [hproj]
    constructor
    · nlinarith
    · nlinarith

/-- C7: for a unit wish-direction and nonnegative wish-speed, `accelerate`
is a no-op when the projection of the velocity onto the wish-direction is
already at least `wish_speed`; a single application from a projection not
above `wish_speed` keeps the projection between its old value and
`wish_speed`; and under repeated application with constant parameters and
positive `accel * dt` the projection sequence is monotonically nondecreasing
and never exceeds `wish_speed`. -/
theorem accelerate_saturates (wd : Vec3) (ws a dt : ℚ)
    (hunit : Vec3.dot wd wd = 1) (hws : 0 ≤ ws) (had : 0 < a * dt) :
    (∀ v : Vec3, ws ≤ Vec3.dot v wd → accelerate wd ws a dt v = v) ∧
    (∀ v : Vec3, Vec3.dot v wd ≤ ws →
        Vec3.dot v wd ≤ Vec3.dot (accelerate wd ws a dt v) wd ∧
          Vec3.dot (accelerate wd ws a dt v) wd ≤ ws) ∧
    (∀ v : Vec3, Vec3.dot v wd ≤ ws → ∀ n : ℕ,
        Vec3.dot ((accelerate wd ws a dt)^[n] v) wd ≤
            Vec3.dot ((accelerate wd ws a dt)^[n + 1] v) wd ∧
          Vec3.dot ((accelerate wd ws a dt)^[n] v) wd ≤ ws) := by
  refine ⟨?_, accelerate_step_bounds wd ws a dt hunit hws had, ?_⟩
  · intro v hv
    rw [accelerate, if_pos (by linarith)]
  · intro v hv n
    induction n with
    | zero =>
        simp only [Function.iterate_one, Function.iterate_zero, id]
        exact ⟨(accelerate_step_bounds wd ws a dt hunit hws had v hv).1, hv⟩
    | succ n ih =>
        have hn1 : Vec3.dot ((accelerate wd ws a dt)^[n + 1] v) wd ≤ ws := by
          rw [Function.iterate_succ_apply' (accelerate wd ws a dt) n v]
          exact (accelerate_step_bounds wd ws a dt hunit hws had _ ih.2).2
        have hstep := accelerate_step_bounds wd ws a dt hunit hws had _ hn1
        refine ⟨?_, hn1⟩
        rw [Function.iterate_succ_apply' (accelerate wd ws a dt) (n + 1) v]
        exact hstep.1

theorem accelerate_saturates_witness :
    (Vec3.dot ⟨1, 0, 0⟩ ⟨1, 0, 0⟩ = 1 ∧ (0 : ℚ) ≤ 2 ∧ (0 : ℚ) < 1 * 1 ∧
        (2 : ℚ) ≤ Vec3.dot ⟨3, 0, 0⟩ ⟨1, 0, 0⟩) ∧
      accelerate ⟨1, 0, 0⟩ 2 1 1 ⟨3, 0, 0⟩ = ⟨3, 0, 0⟩ :=
  ⟨⟨by norm_num [Vec3.dot], by norm_num, by norm_num, by norm_num [Vec3.dot]⟩,
    (accelerate_saturates ⟨1, 0, 0⟩ 2 1 1 (by norm_num [Vec3.dot]) (by norm_num)
        (by norm_num)).1 ⟨3, 0, 0⟩ (by norm_num [Vec3.dot])⟩

/-- C8: on a grounded step whose input has the jump flag set, the integrator
sets the pre-step vertical velocity to `jump_speed`, the post-step vertical
velocity to `jump_speed - gravity * dt`, and the velocity handed to the
physics body is the midpoint average of the pre-step and post-step
velocities, whose vertical component is `jump_speed - gravity * dt / 2`. -/
theorem grounded_jump_midpoint (ext : MathOracles) (dt : ℚ) (st : MoveState)
    (input : FpsControllerInput)
    (hmode : st.controller.move_mode = MoveMode.Ground)
    (hfly : input.fly = false)
    (hground : ext.probeGround st.translation input.pitch input.yaw = true)
    (hjump : input.jump = true) :
    (groundMove ext dt st.controller input st.translation).1.y =
        st.controller.jump_speed ∧
      (groundMove ext dt st.controller input st.translation).2.1.y =
        st.controller.jump_speed - st.controller.gravity * dt ∧
      (applyInput ext dt st input).linvel =
        (1 / 2 : ℚ) • ((groundMove ext dt st.controller input st.translation).1 +
          (groundMove ext dt st.controller input st.translation).2.1) ∧
      (applyInput ext dt st input).linvel.y =
        st.controller.jump_speed - st.controller.gravity * dt / 2 := by
  have hy1 : (groundMove ext dt st.controller input st.translation).1.y =
      st.controller.jump_speed := by
    unfold groundMove
    simp only [hground, hjump, if_true]
  have hy2 : (groundMove ext dt st.controller input st.translation).2.1.y =
      st.controller.jump_speed - st.controller.gravity * dt := by
    unfold groundMove
    simp only [hground, hjump, if_true]
  have hlin : (applyInput ext dt st input).linvel =
      (1 / 2 : ℚ) • ((groundMove ext dt st.controller input st.translation).1 +
        (groundMove ext dt st.controller input st.translation).2.1) := by
    unfold applyInput
    simp only [hfly, Bool.false_eq_true, if_false, hmode]
  refine ⟨hy1, hy2, hlin, ?_⟩
  rw [hlin]
  show (1 / 2 : ℚ) *
      ((groundMove ext dt st.controller input st.translation).1.y +
        (groundMove ext dt st.controller input st.translation).2.1.y) =
    st.controller.jump_speed - st.controller.gravity * dt / 2
  rw [hy1, hy2]
  ring

theorem grounded_jump_midpoint_witness :
    (restState.controller.move_mode = MoveMode.Ground ∧
        jumpInput.fly = false ∧
        trivialExt.probeGround restState.translation jumpInput.pitch jumpInput.yaw
          = true ∧
        jumpInput.jump = true) ∧
      (applyInput trivialExt 1 restState jumpInput).linvel.y =
        restState.controller.jump_speed - restState.controller.gravity * 1 / 2 :=
  ⟨⟨rfl, rfl, rfl, rfl⟩,
    (grounded_jump_midpoint trivialExt 1 restState jumpInput rfl rfl rfl rfl).2.2.2⟩

/-- The step `applyInput` never changes the `apply_single` flag. -/
theorem applyInput_apply_single (ext : MathOracles) (dt : ℚ) (st : MoveState)
    (input : FpsControllerInput) :
    (applyInput ext dt st input).controller.apply_single =
      st.controller.apply_single := by
  cases hf : input.fly <;> cases hm : st.controller.move_mode <;>
    simp [applyInput, hf, hm]

/-- The step `applyInput` records the input serial as `last_applied_serial`. -/
theorem applyInput_serial (ext : MathOracles) (dt : ℚ) (st : MoveState)
    (input : FpsControllerInput) :
    (applyInput ext dt st input).controller.last_applied_serial = input.serial := by
  cases hf : input.fly <;> cases hm : st.controller.move_mode <;>
    simp [applyInput, hf, hm]

/-- With `apply_single` unset the loop is the fold of `applyInput` over the
whole queue and leaves nothing queued. -/
theorem runQueue_drains (ext : MathOracles) (dt : ℚ) :
    ∀ (q : List FpsControllerInput) (st : MoveState),
      st.controller.apply_single = false →
      runQueue ext dt st q = (q.foldl (applyInput ext dt) st, []) := by
  intro q
  induction q with
  | nil => intro st _; rfl
  | cons input rest ih =>
      intro st hs
      have h2 : (applyInput ext dt st input).controller.apply_single = false := by
        rw [applyInput_apply_single]; exact hs
      rw [runQueue, List.foldl_cons]
      simp only [h2, Bool.false_eq_true, if_false]
      exact ih (applyInput ext dt st input) h2

/-- The fold of `applyInput` ends with the serial of the last queued input. -/
theorem foldl_applyInput_serial (ext : MathOracles) (dt : ℚ) :
    ∀ (q : List FpsControllerInput) (st : MoveState) (i : FpsControllerInput),
      q.getLast? = some i →
      (q.foldl (applyInput ext dt) st).controller.last_applied_serial = i.serial := by
  intro q
  induction q with
  | nil => intro st i h; simp at h
  | cons a rest ih =>
      intro st i h
      cases rest with
      | nil =>
          simp only [List.getLast?_singleton, Option.some.injEq] at h
          rw [← h, List.foldl_cons, List.foldl_nil, applyInput_serial]
      | cons b r =>
          rw [List.foldl_cons]
          exact ih (applyInput ext dt st a) i (by rw [← h]; rfl)

/-- The server loop is the fold of `movePlayersStep` over the whole queue. -/
theorem movePlayersLoop_drains (n2 : ℚ → ℚ → ℚ × ℚ) (ms : ℚ) :
    ∀ (q : List PlayerInput) (st : ServerPlayerState),
      movePlayersLoop n2 ms st q = (q.foldl (movePlayersStep n2 ms) st, []) := by
  intro q
  induction q with
  | nil => intro st; rfl
  | cons a rest ih =>
      intro st
      rw [movePlayersLoop, List.foldl_cons]
      exact ih (movePlayersStep n2 ms st a)

/-- The fold of `movePlayersStep` ends with the serial of the last input. -/
theorem foldl_movePlayersStep_serial (n2 : ℚ → ℚ → ℚ × ℚ) (ms : ℚ) :
    ∀ (q : List PlayerInput) (st : ServerPlayerState) (i : PlayerInput),
      q.getLast? = some i →
      (q.foldl (movePlayersStep n2 ms) st).last_applied_serial = i.serial := by
  intro q
  induction q with
  | nil => intro st i h; simp at h
  | cons a rest ih =>
      intro st i h
      cases rest with
      | nil =>
          simp only [List.getLast?_singleton, Option.some.injEq] at h
          rw [← h, List.foldl_cons, List.foldl_nil]
          rfl
      | cons b r =>
          rw [List.foldl_cons]
          exact ih (movePlayersStep n2 ms st a) i (by rw [← h]; rfl)

/-- C10: with `apply_single` unset, one invocation of the movement
integrator pops and applies every queued input command in FIFO order (the
result is the left fold of the single-command step over the queue), leaving
the queue empty and `last_applied_serial` equal to the serial of the last
popped command; likewise `move_players_system` on the server, which has no
early break at all. -/
theorem integrator_drains_queue (ext : MathOracles) (dt : ℚ)
    (n2 : ℚ → ℚ → ℚ × ℚ) (ms : ℚ) :
    (∀ (st : MoveState) (q : List FpsControllerInput),
        st.controller.apply_single = false →
        runQueue ext dt st q = (q.foldl (applyInput ext dt) st, []) ∧
          ∀ i, q.getLast? = some i →
            (runQueue ext dt st q).1.controller.last_applied_serial = i.serial) ∧
      ∀ (st : ServerPlayerState) (q : List PlayerInput),
        movePlayersLoop n2 ms st q = (q.foldl (movePlayersStep n2 ms) st, []) ∧
          ∀ i, q.getLast? = some i →
            (movePlayersLoop n2 ms st q).1.last_applied_serial = i.serial := by
  constructor
  · intro st q hs
    refine ⟨runQueue_drains ext dt q st hs, fun i hi => ?_⟩
    rw [runQueue_drains ext dt q st hs]
    exact foldl_applyInput_serial ext dt q st i hi
  · intro st q
    refine ⟨movePlayersLoop_drains n2 ms q st, fun i hi => ?_⟩
    rw [movePlayersLoop_drains n2 ms q st]
    exact foldl_movePlayersStep_serial n2 ms q st i hi

theorem integrator_drains_queue_witness :
    restState.controller.apply_single = false ∧
      (runQueue trivialExt 1 restState
          [jumpInput, { jumpInput with serial := 2 }]).2 = [] ∧
      (runQueue trivialExt 1 restState
          [jumpInput, { jumpInput with serial := 2 }]).1.controller.last_applied_serial
        = 2 := by
  have h := (integrator_drains_queue trivialExt 1 (fun a b => (a, b)) 5).1 restState
    [jumpInput, { jumpInput with serial := 2 }] rfl
  exact ⟨rfl, by rw [h.1], h.2 { jumpInput with serial := 2 } rfl⟩

/-- C4 counterexample: an invocation of `server_network_sync` whose send
timer has not fired sends no snapshot at all, yet still increments the tick
counter — the increment is not tied to snapshots actually being sent. -/
theorem tick_increment_without_send_counterexample :
    (serverNetworkSync 5 false ⟨⟨[], [], []⟩, ⟨[], [], [], []⟩⟩ [(1, 0)]).2 = [] ∧
      (serverNetworkSync 5 false ⟨⟨[], [], []⟩, ⟨[], [], [], []⟩⟩ [(1, 0)]).1 = 6 :=
  ⟨rfl, rfl⟩

/-- With no occurrence of `pid` among the player ids, the per-player tick
projection of one firing is empty. -/
theorem filterMap_tick_not_mem (pid c : ℕ) :
    ∀ l : List (ℕ × ℕ), pid ∉ l.map Prod.fst →
      (l.filterMap fun pr => if pr.1 = pid then some c else none) = [] := by
  intro l
  induction l with
  | nil => intro _; rfl
  | cons a rest ih =>
      intro h
      rw [List.map_cons] at h
      have h1 : a.1 ≠ pid := fun he => h (by rw [he]; exact List.mem_cons_self _ _)
      rw [List.filterMap_cons]
      simp only [h1, if_false]
      exact ih fun hm => h (List.mem_cons_of_mem _ hm)

/-- With distinct player ids in one firing, the per-player tick projection of
that firing is `[]` or `[tick]`. -/
theorem filterMap_tick_nodup (pid c : ℕ) :
    ∀ l : List (ℕ × ℕ), (l.map Prod.fst).Nodup →
      (l.filterMap fun pr => if pr.1 = pid then some c else none) = [] ∨
        (l.filterMap fun pr => if pr.1 = pid then some c else none) = [c] := by
  intro l
  induction l with
  | nil => intro _; exact Or.inl rfl
  | cons a rest ih =>
      intro h
      rw [List.map_cons, List.nodup_cons] at h
      rw [List.filterMap_cons]
      by_cases ha : a.1 = pid
      · right
        simp only [ha, eq_self_iff_true, ite_true]
        rw [filterMap_tick_not_mem pid c rest (by rw [← ha]; exact h.1)]
      · simp only [ha, if_false]
        exact ih h.2

/-- Per-player sent ticks over a run: strictly increasing, and bounded below
by the starting tick. -/
theorem playerSentTicks_run (pid : ℕ) :
    ∀ (steps : List (Bool × (NetworkedEntities × WithRotation) × List (ℕ × ℕ)))
      (tick : ℕ),
      (∀ s ∈ steps, (s.2.2.map Prod.fst).Nodup) →
      List.Chain' (· < ·) (playerSentTicks pid (serverRun tick steps)) ∧
        ∀ t ∈ playerSentTicks pid (serverRun tick steps), tick ≤ t := by
  intro steps
  induction steps with
  | nil =>
      intro tick _
      exact ⟨List.chain'_nil, fun t ht => absurd ht (List.not_mem_nil t)⟩
  | cons s rest ih =>
      intro tick hnd
      obtain ⟨b, g, p⟩ := s
      have hrest := ih (tick + 1) fun s hs => hnd s (List.mem_cons_of_mem _ hs)
      have hsplit :
          playerSentTicks pid (serverRun tick ((b, g, p) :: rest)) =
            playerSentTicks pid (serverNetworkSync tick b g p).2 ++
              playerSentTicks pid (serverRun (tick + 1) rest) := by
        rw [serverRun]
        exact List.filterMap_append _ _ _
      cases b with
      | false =>
          have hempty : playerSentTicks pid (serverNetworkSync tick false g p).2 = [] := rfl
          rw [hsplit, hempty, List.nil_append]
          exact ⟨hrest.1, fun t ht => le_trans (Nat.le_succ tick) (hrest.2 t ht)⟩
      | true =>
          have hfiring :
              playerSentTicks pid (serverNetworkSync tick true g p).2 =
                p.filterMap fun pr => if pr.1 = pid then some tick else none := by
            show (p.map _).filterMap _ = _
            rw [List.filterMap_map]
            rfl
          have hp : (p.map Prod.fst).Nodup := hnd (true, g, p) (List.mem_cons_self _ _)
          rcases filterMap_tick_nodup pid tick p hp with hcase | hcase
          · rw [hsplit, hfiring, hcase, List.nil_append]
            exact ⟨hrest.1, fun t ht => le_trans (Nat.le_succ tick) (hrest.2 t ht)⟩
          · rw [hsplit, hfiring, hcase, List.singleton_append]
            constructor
            · refine List.chain'_cons'.mpr ⟨?_, hrest.1⟩
              intro u hu
              have : tick + 1 ≤ u :=
                hrest.2 u (List.mem_of_mem_head? hu)
              omega
            · intro t ht
              cases ht with
              | head => exact le_refl tick
              | tail _ ht => exact le_trans (Nat.le_succ tick) (hrest.2 t ht)

/-- C4 (amended): the server tick counter is incremented exactly once per
invocation of `server_network_sync`, regardless of whether the send timer
fired (snapshots are only sent when it fires, but the tick also advances on
invocations that send nothing); each firing sends every listed player one
frame carrying the pre-increment tick, and across a run the ticks carried by
the snapshots sent to any one player (listed with distinct ids per firing)
are strictly increasing. -/
theorem server_tick_monotonic :
    (∀ (tick : ℕ) (b : Bool) (g : NetworkedEntities × WithRotation)
        (p : List (ℕ × ℕ)), (serverNetworkSync tick b g p).1 = tick + 1) ∧
    (∀ (tick : ℕ) (g : NetworkedEntities × WithRotation) (p : List (ℕ × ℕ)),
        (serverNetworkSync tick false g p).2 = []) ∧
    (∀ (tick : ℕ) (g : NetworkedEntities × WithRotation) (p : List (ℕ × ℕ)),
        ∀ m ∈ (serverNetworkSync tick true g p).2, m.2.tick = tick) ∧
    (∀ (pid tick : ℕ)
        (steps : List (Bool × (NetworkedEntities × WithRotation) × List (ℕ × ℕ))),
        (∀ s ∈ steps, (s.2.2.map Prod.fst).Nodup) →
        List.Chain' (· < ·) (playerSentTicks pid (serverRun tick steps))) := by
  refine ⟨fun _ _ _ _ => rfl, fun _ _ _ => rfl, ?_,
    fun pid tick steps h => (playerSentTicks_run pid steps tick h).1⟩
  intro tick g p m hm
  simp only [serverNetworkSync, if_true] at hm
  rcases List.mem_map.mp hm with ⟨pr, _, hpr⟩
  rw [← hpr]

theorem server_tick_monotonic_witness :
    (∀ s ∈ witnessSteps, (s.2.2.map Prod.fst).Nodup) ∧
      List.Chain' (· < ·) (playerSentTicks 1 (serverRun 0 witnessSteps)) :=
  ⟨by decide, server_tick_monotonic.2.2.2 1 0 witnessSteps (by decide)⟩

/-- C1 counterexample: the claim forces the locally-rendered transform after
a snapshot (new tick, controlled entity present, no remaining unacknowledged
commands) to equal the authoritative transform plus an empty accumulation of
replay deltas, i.e. the authoritative translation itself.  The code performs
no replay and no unconditional reset: here the logged position for the
acknowledged serial matches the snapshot exactly (`delta = 0`), so the
correction branch is not taken and the predicted translation `(5, 0, 0)` is
kept instead of the authoritative `(0, 0, 0)`. -/
theorem reconciliation_no_replay_counterexample :
    (clientSyncControlled ⟨1, 0, 0⟩ ⟨0, 0, 0⟩ 7
        ⟨0, [(7, ⟨0, 0, 0⟩)], ⟨5, 0, 0⟩, ⟨0, 0, 0⟩⟩).translation ≠
      (⟨0, 0, 0⟩ : Vec3) := by
  have h : (clientSyncControlled ⟨1, 0, 0⟩ ⟨0, 0, 0⟩ 7
      ⟨0, [(7, ⟨0, 0, 0⟩)], ⟨5, 0, 0⟩, ⟨0, 0, 0⟩⟩).translation = ⟨5, 0, 0⟩ := by
    show (if (1 / 100 : ℚ) < ((⟨0, 0, 0⟩ : Vec3) - ⟨0, 0, 0⟩).lengthSquared ∧
          (⟨1, 0, 0⟩ : Vec3).lengthSquared < 1 / 100 then _ else _ :
        ControlledState).translation = _
    rw [if_neg]
    rintro ⟨h1, _⟩
    norm_num [Vec3.lengthSquared, Vec3.sub_mk] at h1
  rw [h]
  intro he
  have : (5 : ℚ) = 0 := congrArg Vec3.x he
  norm_num at this

/-- Definitional normal form of `clientSyncControlled`. -/
theorem clientSyncControlled_eq (fv ft : Vec3) (s : ℕ) (st : ControlledState) :
    clientSyncControlled fv ft s st =
      match lookupLog st.logPos s with
      | none => { st with linvel := fv, last_applied_serial := s }
      | some lp =>
          if 1 / 100 < (lp - ft).lengthSquared ∧ fv.lengthSquared < 1 / 100 then
            { last_applied_serial := s
              logPos := discardLoop st.logPos s
              translation := ft
              linvel := fv }
          else
            { last_applied_serial := s
              logPos := discardLoop st.logPos s
              translation := st.translation
              linvel := fv } := rfl

/-- C1 (amended): on a snapshot that passed the tick filter and contains the
controlled entity, the client sets the entity's rapier velocity to the
snapshot velocity and `last_applied_serial` to the snapshot's
`last_player_input`; it replays nothing.  When the position log holds no
entry for that serial the state is otherwise untouched.  When it does, log
entries with lower serial are discarded and the translation is snapped to
the authoritative snapshot translation exactly when the logged-position
delta length exceeds `0.1` while the new velocity length is below `0.1`
(`dl`/`vl` being those lengths); otherwise the locally predicted translation
is kept. -/
theorem clientSyncControlled_spec (fv ft : Vec3) (s : ℕ) (st : ControlledState) :
    (clientSyncControlled fv ft s st).linvel = fv ∧
    (clientSyncControlled fv ft s st).last_applied_serial = s ∧
    (lookupLog st.logPos s = none →
        clientSyncControlled fv ft s st =
          { st with linvel := fv, last_applied_serial := s }) ∧
    (∀ (lp : Vec3) (dl vl : ℚ), lookupLog st.logPos s = some lp →
        0 ≤ dl → dl * dl = (lp - ft).lengthSquared →
        0 ≤ vl → vl * vl = fv.lengthSquared →
        (clientSyncControlled fv ft s st).logPos = discardLoop st.logPos s ∧
          (clientSyncControlled fv ft s st).translation =
            if 1 / 10 < dl ∧ vl < 1 / 10 then ft else st.translation) := by
  rw [clientSyncControlled_eq]
  cases h : lookupLog st.logPos s with
  | none =>
      exact ⟨rfl, rfl, fun _ => rfl, fun lp dl vl hlp => Option.noConfusion hlp⟩
  | some lp0 =>
      dsimp only
      by_cases hc : (1 / 100 : ℚ) < (lp0 - ft).lengthSquared ∧
          fv.lengthSquared < 1 / 100
      · rw [if_pos hc]
        refine ⟨rfl, rfl, fun hn => Option.noConfusion hn, ?_⟩
        intro lp dl vl hlp hdl hdl2 hvl hvl2
        have hlp0 : lp0 = lp := Option.some.inj hlp
        subst hlp0
        refine ⟨rfl, ?_⟩
        have hgoal : 1 / 10 < dl ∧ vl < 1 / 10 := by
          constructor
          · nlinarith [hc.1]
          · nlinarith [hc.2]
        rw [if_pos hgoal]
      · rw [if_neg hc]
        refine ⟨rfl, rfl, fun hn => Option.noConfusion hn, ?_⟩
        intro lp dl vl hlp hdl hdl2 hvl hvl2
        have hlp0 : lp0 = lp := Option.some.inj hlp
        subst hlp0
        refine ⟨rfl, ?_⟩
        have hgoal : ¬ (1 / 10 < dl ∧ vl < 1 / 10) := by
          intro hx
          apply hc
          constructor
          · nlinarith [hx.1]
          · nlinarith [hx.2]
        rw [if_neg hgoal]

theorem clientSyncControlled_spec_witness :
    (lookupLog [(7, (⟨3, 0, 4⟩ : Vec3))] 7 = some ⟨3, 0, 4⟩ ∧
        (0 : ℚ) ≤ 5 ∧
        (5 : ℚ) * 5 = ((⟨3, 0, 4⟩ : Vec3) - ⟨0, 0, 0⟩).lengthSquared ∧
        (0 : ℚ) ≤ 0 ∧ (0 : ℚ) * 0 = (⟨0, 0, 0⟩ : Vec3).lengthSquared) ∧
      (clientSyncControlled ⟨0, 0, 0⟩ ⟨0, 0, 0⟩ 7
          ⟨0, [(7, ⟨3, 0, 4⟩)], ⟨9, 9, 9⟩, ⟨0, 0, 0⟩⟩).logPos =
        discardLoop [(7, ⟨3, 0, 4⟩)] 7 ∧
      (clientSyncControlled ⟨0, 0, 0⟩ ⟨0, 0, 0⟩ 7
          ⟨0, [(7, ⟨3, 0, 4⟩)], ⟨9, 9, 9⟩, ⟨0, 0, 0⟩⟩).translation =
        if (1 / 10 : ℚ) < 5 ∧ (0 : ℚ) < 1 / 10 then (⟨0, 0, 0⟩ : Vec3)
        else ⟨9, 9, 9⟩ := by
  have h := (clientSyncControlled_spec ⟨0, 0, 0⟩ ⟨0, 0, 0⟩ 7
      ⟨0, [(7, ⟨3, 0, 4⟩)], ⟨9, 9, 9⟩, ⟨0, 0, 0⟩⟩).2.2.2 ⟨3, 0, 4⟩ 5 0 rfl
    (by norm_num) (by norm_num [Vec3.sub_mk, Vec3.lengthSquared]) le_rfl
    (by norm_num [Vec3.lengthSquared])
  exact ⟨⟨rfl, by norm_num, by norm_num [Vec3.sub_mk, Vec3.lengthSquared], le_rfl,
    by norm_num [Vec3.lengthSquared]⟩, h.1, h.2⟩
